import Mathlib

/-!
Shallow embedding of the UDP stress-test pair (src/udp_sender.py, src/udp_receiver.py).

Datagram payloads are modelled as `List Char` (the scripts only ever treat bytes as
ASCII text).  Python's arbitrary-precision `int` is modelled by `Int`/`Nat`, and the
float arithmetic of the rate/loss computations by `ℚ` (every value the claims mention
is exactly representable).
-/

namespace UdpStress

/-! Python `int()` parsing, modelled from CPython semantics for ASCII bytes

`int(b)` strips ASCII whitespace at both ends, accepts one optional sign, and then a
nonempty run of decimal digits in which single underscores may appear between digits.
-/

/-- The ASCII whitespace characters stripped by Python's `int()`. -/
def isPySpace (c : Char) : Bool :=
  c = ' ' || c = '\t' || c = '\n' || c = '\r' || c = Char.ofNat 11 || c = Char.ofNat 12

/-- Strip `isPySpace` characters from both ends of the list. -/
def stripWs (l : List Char) : List Char :=
  ((l.dropWhile isPySpace).reverse.dropWhile isPySpace).reverse

/-- Digit-accumulation step: `acc * 10 + value-of c`. -/
def digStep (acc : Nat) (c : Char) : Nat := 10 * acc + (c.toNat - 48)

/-- Digit-run parser: `acc` is the value so far, `last` records whether the previous
character was a digit (an underscore is legal only directly after a digit, and the
run must end in a digit). -/
def parseDigitsAux : Nat → Bool → List Char → Option Nat
  | acc, last, [] => if last then some acc else none
  | acc, last, c :: rest =>
      if c.isDigit then parseDigitsAux (digStep acc c) true rest
      else if c = '_' && last then parseDigitsAux acc false rest
      else none

/-- Parse a nonempty run of decimal digits (with Python's underscore rule). -/
def parseDigits (l : List Char) : Option Nat := parseDigitsAux 0 false l

/-- Python `int()` on ASCII bytes: strip whitespace, one optional sign, digit run. -/
def pyInt (l : List Char) : Option Int :=
  let t := stripWs l
  if t.isEmpty then none
  else if t.headI = '+' then (parseDigits t.tail).map Int.ofNat
  else if t.headI = '-' then (parseDigits t.tail).map (fun n => -(n : Int))
  else (parseDigits t).map Int.ofNat

/-! Packet codec

Receiver, lines 127-128:
    seq_str = data.split(b':')[0]
    seq_num = int(seq_str)
Sender, line 224:
    packet_data = f"{packets_sent}:".encode() + b'X' * (current_size - len(f"{packets_sent}:") - 1)
followed by `sock.sendto(packet_data[:current_size], ...)` on line 227.
-/

/-- Model of `data.split(b':')[0]`: the chunk before the first `':'` (the whole input when no
`':'` occurs). -/
def pySplitHead (data : List Char) : List Char := (data.splitOn ':').headI

/-- Receiver-side `decode`: extract the sequence number from a datagram, or signal a parse error
(the receiver wraps lines 127-128 in a bare `except`). -/
def decode (data : List Char) : Except Unit Int :=
  match pyInt (pySplitHead data) with
  | some n => Except.ok n
  | none => Except.error ()

/-- The ASCII character of a decimal digit `d < 10`. -/
def digitChar (d : Nat) : Char :=
  if d = 0 then '0' else if d = 1 then '1' else if d = 2 then '2'
  else if d = 3 then '3' else if d = 4 then '4' else if d = 5 then '5'
  else if d = 6 then '6' else if d = 7 then '7' else if d = 8 then '8' else '9'

/-- Decimal digits of `n`, most significant first; `fuel` bounds the recursion and
any `fuel > n` is enough (kept structural so the kernel can evaluate it). -/
def natReprAux : Nat → Nat → List Char
  | 0, _ => []
  | fuel + 1, n =>
      if n < 10 then [digitChar n]
      else natReprAux fuel (n / 10) ++ [digitChar (n % 10)]

/-- The decimal representation of `n`, as produced by Python's `f"{n}"`. -/
def natRepr (n : Nat) : List Char := natReprAux (n + 1) n

/-- The textual sequence-number field `f"{n}:"` of a packet. -/
def seqField (n : Nat) : List Char := natRepr n ++ [':']

/-- Sender-side `encode`: the datagram the sender emits for sequence number `n` at configured
size `size` — sequence field, then `'X'` filler, truncated to `size`.  Python's
`b'X' * k` yields the empty string for negative `k`, which `Nat` subtraction models
exactly; the final `.take size` is the `[:current_size]` slice. -/
def encode (n size : Nat) : List Char :=
  ((seqField n) ++ List.replicate (size - (seqField n).length - 1) 'X').take size

/-! Session state and the sequence tracker

The receiver's `stats` dict (lines 21-36), restricted to the fields the packet path
touches; the reporting-only timing fields (`start_time`, `last_report_time`,
`last_packets`, `last_bytes`) and the rate window are modelled separately with the
reporting functions, which receive the corresponding deltas as arguments.
-/

structure St where
  packets_received : Nat
  bytes_received : Nat
  last_seq_num : Option Int
  out_of_order : Nat
  duplicates : Nat
  sequence_numbers : Finset Int
  min_seq : Option Int
  max_seq : Option Int
deriving DecidableEq

/-- The freshly initialised `stats` dict. -/
def initSt : St :=
  { packets_received := 0
    bytes_received := 0
    last_seq_num := none
    out_of_order := 0
    duplicates := 0
    sequence_numbers := ∅
    min_seq := none
    max_seq := none }

/-- Model of `if stats['min_seq'] is None or seq_num < stats['min_seq']: stats['min_seq'] = seq_num`. -/
def updMin : Option Int → Int → Option Int
  | none, seq => some seq
  | some m, seq => if seq < m then some seq else some m

/-- Model of `if stats['max_seq'] is None or seq_num > stats['max_seq']: stats['max_seq'] = seq_num`. -/
def updMax : Option Int → Int → Option Int
  | none, seq => some seq
  | some m, seq => if m < seq then some seq else some m

/-- One successfully decoded sequence number (receiver lines 131-146): duplicate
check against the seen-set, min/max update, arrival-order reorder check against the
previous arrival, then unconditional `last_seq_num` update. -/
def observe (s : St) (seq : Int) : St :=
  let s1 :=
    if seq ∈ s.sequence_numbers then { s with duplicates := s.duplicates + 1 }
    else { s with sequence_numbers := insert seq s.sequence_numbers }
  let s2 := { s1 with min_seq := updMin s1.min_seq seq, max_seq := updMax s1.max_seq seq }
  let s3 :=
    match s2.last_seq_num with
    | some l => if seq < l then { s2 with out_of_order := s2.out_of_order + 1 } else s2
    | none => s2
  { s3 with last_seq_num := some seq }

/-- One received datagram (receiver lines 121-149): raw counters always advance;
the sequence analysis runs only when `decode` succeeds. -/
def receiveOne (s : St) (data : List Char) : St :=
  let s0 := { s with
    packets_received := s.packets_received + 1
    bytes_received := s.bytes_received + data.length }
  match decode data with
  | Except.ok seq => observe s0 seq
  | Except.error _ => s0

/-! Rate sampler and report statistics (receiver `print_stats`, lines 49-110) -/

/-- One reporting tick (lines 54-64): given the deltas of the interval, the
instantaneous rates and the updated rolling window.  `(0, 0)` and an untouched
window when no time has elapsed; otherwise append and `pop(0)` past 10 samples. -/
def tick (w : List (ℚ × ℚ)) (dp db ds : ℚ) : (ℚ × ℚ) × List (ℚ × ℚ) :=
  if 0 < ds then
    let pps := dp / ds
    let bps := db * 8 / ds
    let w1 := w ++ [(pps, bps)]
    ((pps, bps), if 10 < w1.length then w1.tail else w1)
  else ((0, 0), w)

/-- The window part of `tick` as a fold step over `(delta_packets, delta_bytes, delta_seconds)` triples. -/
def tickStep (w : List (ℚ × ℚ)) (t : ℚ × ℚ × ℚ) : List (ℚ × ℚ) :=
  (tick w t.1 t.2.1 t.2.2).2

/-- The sample a positive-interval tick appends for a given triple. -/
def tickRate (t : ℚ × ℚ × ℚ) : ℚ × ℚ := (t.1 / t.2.2, t.2.1 * 8 / t.2.2)

/-- Window averages (lines 67-72): arithmetic means, `(0, 0)` for the empty window. -/
def average (w : List (ℚ × ℚ)) : ℚ × ℚ :=
  if w.isEmpty then (0, 0)
  else ((w.map Prod.fst).sum / w.length, (w.map Prod.snd).sum / w.length)

/-- The loss block of `print_stats` (lines 74-83): `expected`, the local variable
`received` (`none` models that the Python local is never assigned on the
unset-bounds branch), and `loss_percent`. -/
def statsFields (s : St) : Int × Option Nat × ℚ :=
  match s.min_seq, s.max_seq with
  | some mn, some mx =>
      let expected : Int := mx - mn + 1
      let received : Nat := s.sequence_numbers.card
      (expected, some received,
        if 0 < expected then 100 * ((expected : ℚ) - received) / expected else 0)
  | _, _ => (0, none, 0)

/-- The final-summary missing count (line 94):
`expected - received if expected > received else 0`.  Evaluating the condition reads
the local `received`; when it was never assigned Python raises `UnboundLocalError`,
modelled as `Except.error`. -/
def finalMissing (expected : Int) (received : Option Nat) : Except Unit Int :=
  match received with
  | some r => Except.ok (if (r : Int) < expected then expected - r else 0)
  | none => Except.error ()

/-! Canonical forms of the tracker's transition functions -/

/-- The transition `observe` written as a single record, one field at a time. -/
theorem observe_eq (s : St) (a : Int) :
    observe s a =
      { packets_received := s.packets_received
        bytes_received := s.bytes_received
        last_seq_num := some a
        out_of_order :=
          match s.last_seq_num with
          | some l => if a < l then s.out_of_order + 1 else s.out_of_order
          | none => s.out_of_order
        duplicates := if a ∈ s.sequence_numbers then s.duplicates + 1 else s.duplicates
        sequence_numbers :=
          if a ∈ s.sequence_numbers then s.sequence_numbers
          else insert a s.sequence_numbers
        min_seq := updMin s.min_seq a
        max_seq := updMax s.max_seq a } := by
  unfold observe
  by_cases h : a ∈ s.sequence_numbers <;> cases hl : s.last_seq_num <;>
    simp [h, hl] <;> split <;> simp

/-- A datagram that fails to decode only bumps the raw counters. -/
theorem receiveOne_eq_error (s : St) (data : List Char)
    (h : decode data = Except.error ()) :
    receiveOne s data =
      { s with
        packets_received := s.packets_received + 1
        bytes_received := s.bytes_received + data.length } := by
  unfold receiveOne
  rw [h]

/-- A datagram that decodes to `q` bumps the raw counters and is then observed. -/
theorem receiveOne_eq_ok (s : St) (data : List Char) (q : Int)
    (h : decode data = Except.ok q) :
    receiveOne s data =
      observe
        { s with
          packets_received := s.packets_received + 1
          bytes_received := s.bytes_received + data.length } q := by
  unfold receiveOne
  rw [h]

/-! Tracker invariants -/

/-- The min/max bounds and the seen-set are either all unset or consistent. -/
def BoundsOK (s : St) : Prop :=
  (s.min_seq = none ∧ s.max_seq = none ∧ s.sequence_numbers = ∅) ∨
  (∃ mn mx, s.min_seq = some mn ∧ s.max_seq = some mx ∧ mn ≤ mx ∧
    ∀ x ∈ s.sequence_numbers, mn ≤ x ∧ x ≤ mx)

theorem boundsOK_init : BoundsOK initSt := Or.inl ⟨rfl, rfl, rfl⟩

theorem boundsOK_observe (s : St) (a : Int) (h : BoundsOK s) : BoundsOK (observe s a) := by
  rcases h with ⟨h1, h2, h3⟩ | ⟨mn, mx, h1, h2, h3, h4⟩
  · refine Or.inr ⟨a, a, ?_, ?_, le_refl a, ?_⟩
    · simp [observe_eq, h1, updMin]
    · simp [observe_eq, h2, updMax]
    · intro x hx
      have : a ∉ s.sequence_numbers := by simp [h3]
      simp [observe_eq, this, h3] at hx
      simp [hx]
  · refine Or.inr ⟨if a < mn then a else mn, if mx < a then a else mx, ?_, ?_, ?_, ?_⟩
    · simp [observe_eq, h1, updMin]
      split <;> rfl
    · simp [observe_eq, h2, updMax]
      split <;> rfl
    · split <;> split <;> omega
    · intro x hx
      have hx' : x = a ∨ x ∈ s.sequence_numbers := by
        by_cases hm : a ∈ s.sequence_numbers
        · exact Or.inr (by simpa [observe_eq, hm] using hx)
        · simpa [observe_eq, hm] using (by simpa [observe_eq, hm] using hx)
      rcases hx' with rfl | hx'
      · constructor <;> split <;> omega
      · have := h4 x hx'
        constructor <;> split <;> omega

theorem boundsOK_receiveOne (s : St) (data : List Char) (h : BoundsOK s) :
    BoundsOK (receiveOne s data) := by
  cases hd : decode data with
  | error e =>
      cases e
      rw [receiveOne_eq_error s data hd]
      exact h
  | ok q =>
      rw [receiveOne_eq_ok s data q hd]
      exact boundsOK_observe _ q h

theorem dup_le_packets_receiveOne (s : St) (data : List Char)
    (h : s.duplicates ≤ s.packets_received) :
    (receiveOne s data).duplicates ≤ (receiveOne s data).packets_received := by
  cases hd : decode data with
  | error e =>
      cases e
      rw [receiveOne_eq_error s data hd]
      exact Nat.le_succ_of_le h
  | ok q =>
      rw [receiveOne_eq_ok s data q hd]
      simp [observe_eq]
      split <;> omega

theorem inv_fold (ds : List (List Char)) :
    ∀ s : St, BoundsOK s → s.duplicates ≤ s.packets_received →
      BoundsOK (ds.foldl receiveOne s) ∧
        (ds.foldl receiveOne s).duplicates ≤ (ds.foldl receiveOne s).packets_received := by
  induction ds with
  | nil => exact fun s hb hd => ⟨hb, hd⟩
  | cons d ds ih =>
      intro s hb hd
      exact ih (receiveOne s d) (boundsOK_receiveOne s d hb)
        (dup_le_packets_receiveOne s d hd)

/-- Each `observe` either inserts a fresh element or bumps `duplicates`, never both. -/
theorem obs_fold_count (seqs : List Int) :
    ∀ s : St,
      (seqs.foldl observe s).duplicates + (seqs.foldl observe s).sequence_numbers.card
        = s.duplicates + s.sequence_numbers.card + seqs.length := by
  induction seqs with
  | nil => intro s; simp
  | cons a l ih =>
      intro s
      rw [List.foldl_cons, ih]
      by_cases h : a ∈ s.sequence_numbers
      · simp [observe_eq, h]
        omega
      · simp [observe_eq, h, Finset.card_insert_of_not_mem h]
        omega

/-! Claim theorems: sequence tracker -/

/-- C1 (counterexample): observing `[0, 1, 2, 1, 4]` from the fresh state leaves
`out_of_order = 1`, not `0` as claimed — the duplicate `1` arrives after `2` and the
reorder check (receiver line 143) runs for duplicates too. -/
theorem scenarioA_out_of_order_one :
    ([0, 1, 2, 1, 4].foldl observe initSt).out_of_order = 1 ∧ (1 : Nat) ≠ 0 :=
  ⟨by decide, by decide⟩

/-- C1 (amended): for the observe-call sequence `[0, 1, 2, 1, 4]` from the fresh
state: duplicates = 1, out_of_order = 1, min_seq = 0, max_seq = 4,
received = |seen_sequences| = 4, expected = 5, missing = 1, loss_percent = 20. -/
theorem scenarioA_trace :
    ([0, 1, 2, 1, 4].foldl observe initSt).duplicates = 1 ∧
    ([0, 1, 2, 1, 4].foldl observe initSt).out_of_order = 1 ∧
    ([0, 1, 2, 1, 4].foldl observe initSt).min_seq = some 0 ∧
    ([0, 1, 2, 1, 4].foldl observe initSt).max_seq = some 4 ∧
    ([0, 1, 2, 1, 4].foldl observe initSt).sequence_numbers.card = 4 ∧
    (statsFields ([0, 1, 2, 1, 4].foldl observe initSt)).1 = 5 ∧
    (statsFields ([0, 1, 2, 1, 4].foldl observe initSt)).2.1 = some 4 ∧
    finalMissing (statsFields ([0, 1, 2, 1, 4].foldl observe initSt)).1
        (statsFields ([0, 1, 2, 1, 4].foldl observe initSt)).2.1 = Except.ok 1 ∧
    (statsFields ([0, 1, 2, 1, 4].foldl observe initSt)).2.2 = 20 := by
  refine ⟨by decide, by decide, by decide, by decide, by decide, by decide, by decide,
    rfl, ?_⟩
  norm_num [statsFields, observe, initSt, updMin, updMax]

/-- C2 (code-bug evaluation): on the fresh session the loss block yields
expected = 0, an unassigned `received` local, and loss_percent = 0; the periodic
report is fine, but the final summary's missing-packet line reads the unassigned
local and raises (`UnboundLocalError`), modelled as `Except.error`. -/
theorem empty_session_final_report :
    statsFields initSt = (0, none, 0) ∧
    finalMissing (statsFields initSt).1 (statsFields initSt).2.1 = Except.error () :=
  ⟨rfl, rfl⟩

/-- C7: a datagram whose decode fails still bumps `packets_received` by one and
`bytes_received` by its length, and leaves every sequence-analysis field unchanged. -/
theorem decode_failure_counts_raw_only (s : St) (data : List Char)
    (h : decode data = Except.error ()) :
    (receiveOne s data).packets_received = s.packets_received + 1 ∧
    (receiveOne s data).bytes_received = s.bytes_received + data.length ∧
    (receiveOne s data).sequence_numbers = s.sequence_numbers ∧
    (receiveOne s data).min_seq = s.min_seq ∧
    (receiveOne s data).max_seq = s.max_seq ∧
    (receiveOne s data).last_seq_num = s.last_seq_num ∧
    (receiveOne s data).duplicates = s.duplicates ∧
    (receiveOne s data).out_of_order = s.out_of_order := by
  rw [receiveOne_eq_error s data h]
  exact ⟨rfl, rfl, rfl, rfl, rfl, rfl, rfl, rfl⟩

theorem decode_failure_counts_raw_only_witness :
    decode ['x'] = Except.error () ∧
    (receiveOne initSt ['x']).packets_received = initSt.packets_received + 1 ∧
    (receiveOne initSt ['x']).bytes_received = initSt.bytes_received + (['x'] : List Char).length ∧
    (receiveOne initSt ['x']).sequence_numbers = initSt.sequence_numbers :=
  ⟨rfl, (decode_failure_counts_raw_only initSt ['x'] rfl).1,
    (decode_failure_counts_raw_only initSt ['x'] rfl).2.1,
    (decode_failure_counts_raw_only initSt ['x'] rfl).2.2.1⟩

/-- C8: after any sequence of received datagrams from the initial state,
`duplicates` never exceeds `packets_received`, and whenever both bounds are set
`min_seq ≤ max_seq` and `|seen_sequences| ≤ max_seq - min_seq + 1`, so the missing
count `expected - received` is never negative. -/
theorem tracker_invariants (ds : List (List Char)) :
    (ds.foldl receiveOne initSt).duplicates ≤ (ds.foldl receiveOne initSt).packets_received ∧
    ∀ mn mx, (ds.foldl receiveOne initSt).min_seq = some mn →
      (ds.foldl receiveOne initSt).max_seq = some mx →
      mn ≤ mx ∧
        ((ds.foldl receiveOne initSt).sequence_numbers.card : Int) ≤ mx - mn + 1 := by
  obtain ⟨hb, hd⟩ := inv_fold ds initSt boundsOK_init (le_refl 0)
  refine ⟨hd, ?_⟩
  intro mn mx hmn hmx
  rcases hb with ⟨h1, _, _⟩ | ⟨mn', mx', h1, h2, h3, h4⟩
  · rw [hmn] at h1
    exact absurd h1 (by simp)
  · rw [hmn] at h1
    rw [hmx] at h2
    have e1 : mn = mn' := by injection h1
    have e2 : mx = mx' := by injection h2
    subst e1
    subst e2
    refine ⟨h3, ?_⟩
    have hsub : (ds.foldl receiveOne initSt).sequence_numbers ⊆ Finset.Icc mn mx :=
      fun x hx => Finset.mem_Icc.mpr (h4 x hx)
    have hc := Finset.card_le_card hsub
    rw [Int.card_Icc] at hc
    omega

theorem tracker_invariants_witness :
    (([['3', ':'], ['1', ':']].foldl receiveOne initSt).min_seq = some 1) ∧
    (([['3', ':'], ['1', ':']].foldl receiveOne initSt).max_seq = some 3) ∧
    ((1 : Int) ≤ 3 ∧
      ((([['3', ':'], ['1', ':']].foldl receiveOne initSt).sequence_numbers.card : Int)
        ≤ 3 - 1 + 1)) :=
  ⟨by decide, by decide,
    (tracker_invariants [['3', ':'], ['1', ':']]).2 1 3 (by decide) (by decide)⟩

/-- C10: every observed packet either inserts a fresh sequence number or bumps
`duplicates`, so their totals always add up to the number of observe calls. -/
theorem duplicates_add_card_eq_calls (seqs : List Int) :
    (seqs.foldl observe initSt).duplicates
        + (seqs.foldl observe initSt).sequence_numbers.card
      = seqs.length := by
  have h := obs_fold_count seqs initSt
  simpa [initSt] using h

/-! Rate-window lemmas -/

/-- A positive-interval tick appends its sample and evicts the head past capacity. -/
theorem tickStep_pos (w : List (ℚ × ℚ)) (t : ℚ × ℚ × ℚ) (h : 0 < t.2.2) :
    tickStep w t =
      if 10 < w.length + 1 then (w ++ [tickRate t]).tail else w ++ [tickRate t] := by
  unfold tickStep tick tickRate
  simp [h]

/-- One tick keeps the window within capacity. -/
theorem tickStep_len_le (w : List (ℚ × ℚ)) (t : ℚ × ℚ × ℚ) (h : w.length ≤ 10) :
    (tickStep w t).length ≤ 10 := by
  by_cases hds : 0 < t.2.2
  · rw [tickStep_pos w t hds]
    by_cases hlen : 10 < w.length + 1
    · rw [if_pos hlen]
      simp
      exact h
    · rw [if_neg hlen]
      simp
      omega
  · unfold tickStep tick
    rw [if_neg hds]
    exact h

theorem tickFold_len_le (ts : List (ℚ × ℚ × ℚ)) :
    ∀ w : List (ℚ × ℚ), w.length ≤ 10 → (ts.foldl tickStep w).length ≤ 10 := by
  induction ts with
  | nil => exact fun w h => h
  | cons t ts ih => exact fun w h => ih (tickStep w t) (tickStep_len_le w t h)

/-- FIFO characterization: positive-interval ticks leave exactly the most recent
(up to ten) samples, in order. -/
theorem tickFold_pos (ts : List (ℚ × ℚ × ℚ)) :
    ∀ w : List (ℚ × ℚ), (∀ t ∈ ts, 0 < t.2.2) → w.length ≤ 10 →
      ts.foldl tickStep w = (w ++ ts.map tickRate).drop (w.length + ts.length - 10) := by
  induction ts with
  | nil =>
      intro w _ hw
      have h0 : w.length + ([] : List (ℚ × ℚ × ℚ)).length - 10 = 0 := by
        simp
        omega
      rw [h0]
      simp
  | cons t ts ih =>
      intro w hpos hw
      rw [List.foldl_cons, tickStep_pos w t (hpos t (by simp))]
      by_cases hc : 10 < w.length + 1
      · have hw10 : w.length = 10 := by omega
        obtain ⟨c, w', rfl⟩ : ∃ c w', w = c :: w' := by
          cases w with
          | nil => simp at hw10
          | cons c w' => exact ⟨c, w', rfl⟩
        have hw9 : w'.length = 9 := by simpa using hw10
        rw [if_pos hc]
        have htail : ((c :: w') ++ [tickRate t]).tail = w' ++ [tickRate t] := rfl
        rw [htail]
        rw [ih (w' ++ [tickRate t]) (fun u hu => hpos u (List.mem_cons_of_mem _ hu))
          (by simp [hw9])]
        have i1 : (w' ++ [tickRate t]).length + ts.length - 10 = ts.length := by
          simp [hw9]
        have i2 : (c :: w').length + (t :: ts).length - 10 = ts.length + 1 := by
          simp [hw9]
        rw [i1, i2]
        rw [List.append_assoc]
        rfl
      · rw [if_neg hc]
        rw [ih (w ++ [tickRate t]) (fun u hu => hpos u (List.mem_cons_of_mem _ hu))
          (by simp; omega)]
        have i3 : (w ++ [tickRate t]).length + ts.length - 10
            = w.length + (t :: ts).length - 10 := by
          simp
          omega
        rw [i3, List.append_assoc]
        rfl

/-! Claim theorems: rate sampler -/

/-- C5 (counterexample): `tick(100, 800000, 1.0)` reports an instantaneous bit rate
of `800000 * 8 = 6400000`, not `800000` — the second delta is bytes and the code
multiplies by eight. -/
theorem tick_bits_counterexample :
    (tick [] 100 800000 1).1.2 = 6400000 ∧ ((6400000 : ℚ) ≠ 800000) := by
  constructor
  · simp [tick]
    norm_num
  · norm_num

/-- C5 (amended): `tick(100, 800000, 1.0)` returns instant_pps = 100 and
instant_bps = 6400000 (the byte delta is converted to bits); and for any deltas,
`tick` with `delta_seconds ≤ 0` returns `(0, 0)` and leaves the window untouched. -/
theorem tick_scenarioC :
    (tick [] 100 800000 1).1 = (100, 6400000) ∧
    ∀ (w : List (ℚ × ℚ)) (dp db ds : ℚ), ds ≤ 0 → tick w dp db ds = ((0, 0), w) := by
  constructor
  · simp [tick]
    norm_num
  · intro w dp db ds h
    unfold tick
    rw [if_neg (not_lt.mpr h)]

theorem tick_scenarioC_witness :
    ((0 : ℚ) ≤ 0) ∧ tick [(1, 2)] 3 4 0 = ((0, 0), [(1, 2)]) :=
  ⟨le_refl 0, tick_scenarioC.2 [(1, 2)] 3 4 0 (le_refl 0)⟩

/-- C9: the rate window never exceeds ten samples, and under positive intervals the
window after any tick sequence is exactly the most recent ten samples — so after
eleven ticks the first sample has been evicted and no longer enters `average`. -/
theorem rate_window_fifo :
    (∀ ts : List (ℚ × ℚ × ℚ), (ts.foldl tickStep []).length ≤ 10) ∧
    (∀ ts : List (ℚ × ℚ × ℚ), (∀ t ∈ ts, 0 < t.2.2) →
      ts.foldl tickStep [] = (ts.map tickRate).drop (ts.length - 10)) := by
  constructor
  · intro ts
    exact tickFold_len_le ts [] (by simp)
  · intro ts hpos
    have h := tickFold_pos ts [] hpos (by simp)
    simpa using h

/-! Codec lemmas -/

theorem digitChar_isDigit (d : Nat) (h : d < 10) : (digitChar d).isDigit = true := by
  interval_cases d <;> rfl

theorem digStep_digitChar (acc d : Nat) (h : d < 10) :
    digStep acc (digitChar d) = 10 * acc + d := by
  interval_cases d <;> rfl

theorem digitChar_bne_colon (d : Nat) (h : d < 10) : (digitChar d != ':') = true := by
  interval_cases d <;> rfl

theorem digitChar_ne_plus (d : Nat) (h : d < 10) : ¬ digitChar d = '+' := by
  interval_cases d <;> decide

theorem digitChar_ne_minus (d : Nat) (h : d < 10) : ¬ digitChar d = '-' := by
  interval_cases d <;> decide

theorem digitChar_not_space (d : Nat) (h : d < 10) : isPySpace (digitChar d) = false := by
  interval_cases d <;> rfl

theorem natReprAux_ne_nil (fuel n : Nat) (h : n < fuel) : natReprAux fuel n ≠ [] := by
  cases fuel with
  | zero => omega
  | succ fuel =>
      simp only [natReprAux]
      split
      · simp
      · simp

theorem natReprAux_mem (fuel : Nat) :
    ∀ n, n < fuel → ∀ c ∈ natReprAux fuel n, ∃ d, d < 10 ∧ c = digitChar d := by
  induction fuel with
  | zero => omega
  | succ fuel ih =>
      intro n hn c hc
      simp only [natReprAux] at hc
      by_cases h10 : n < 10
      · rw [if_pos h10] at hc
        simp at hc
        exact ⟨n, h10, hc⟩
      · rw [if_neg h10] at hc
        rw [List.mem_append] at hc
        rcases hc with hc | hc
        · have hdiv : n / 10 < fuel :=
            lt_of_lt_of_le (Nat.div_lt_self (by omega) (by omega)) (by omega)
          exact ih (n / 10) hdiv c hc
        · simp at hc
          exact ⟨n % 10, Nat.mod_lt n (by omega), hc⟩

theorem natReprAux_foldl (fuel : Nat) :
    ∀ n acc, n < fuel →
      List.foldl digStep acc (natReprAux fuel n)
        = acc * 10 ^ (natReprAux fuel n).length + n := by
  induction fuel with
  | zero => omega
  | succ fuel ih =>
      intro n acc hn
      simp only [natReprAux]
      by_cases h10 : n < 10
      · rw [if_pos h10]
        simp [digStep_digitChar acc n h10]
        omega
      · rw [if_neg h10]
        have hdiv : n / 10 < fuel :=
          lt_of_lt_of_le (Nat.div_lt_self (by omega) (by omega)) (by omega)
        rw [List.foldl_append, ih (n / 10) acc hdiv]
        rw [List.length_append, List.length_cons, List.length_nil]
        rw [List.foldl_cons, List.foldl_nil]
        rw [digStep_digitChar _ _ (Nat.mod_lt n (by omega))]
        calc 10 * (acc * 10 ^ (natReprAux fuel (n / 10)).length + n / 10) + n % 10
            = acc * (10 ^ (natReprAux fuel (n / 10)).length * 10)
                + (10 * (n / 10) + n % 10) := by ring
          _ = acc * 10 ^ ((natReprAux fuel (n / 10)).length + 0 + 1) + n := by
                rw [Nat.div_add_mod]
                rw [pow_succ]

theorem parseAux_append (l : List Char) :
    ∀ (r : List Char) (acc : Nat) (b : Bool), (∀ c ∈ l, c.isDigit = true) → l ≠ [] →
      parseDigitsAux acc b (l ++ r) = parseDigitsAux (l.foldl digStep acc) true r := by
  induction l with
  | nil => intro r acc b _ hne; exact absurd rfl hne
  | cons c l ih =>
      intro r acc b hd _
      have hc : c.isDigit = true := hd c (by simp)
      rw [List.cons_append]
      simp only [parseDigitsAux]
      rw [if_pos hc]
      cases l with
      | nil => simp
      | cons d l2 =>
          rw [ih r (digStep acc c) true (fun u hu => hd u (by simp [hu])) (by simp)]
          rfl

theorem parseDigits_natRepr (n : Nat) : parseDigits (natRepr n) = some n := by
  unfold parseDigits natRepr
  have hne := natReprAux_ne_nil (n + 1) n (Nat.lt_succ_self n)
  have hdig : ∀ c ∈ natReprAux (n + 1) n, c.isDigit = true := by
    intro c hc
    obtain ⟨d, hd, rfl⟩ := natReprAux_mem (n + 1) n (Nat.lt_succ_self n) c hc
    exact digitChar_isDigit d hd
  have happ := parseAux_append (natReprAux (n + 1) n) [] 0 false hdig hne
  rw [List.append_nil] at happ
  rw [happ]
  simp only [parseDigitsAux]
  rw [natReprAux_foldl (n + 1) n 0 (Nat.lt_succ_self n)]
  simp

theorem dropWhile_eq_self_of (p : Char → Bool) (l : List Char)
    (h : ∀ c ∈ l, p c = false) : l.dropWhile p = l := by
  cases l with
  | nil => rfl
  | cons c l =>
      rw [List.dropWhile_cons, h c (by simp)]
      simp

theorem takeWhile_eq_self_of (p : Char → Bool) (l : List Char)
    (h : ∀ c ∈ l, p c = true) : l.takeWhile p = l := by
  induction l with
  | nil => rfl
  | cons c l ih =>
      rw [List.takeWhile_cons, if_pos (h c (by simp))]
      rw [ih (fun u hu => h u (by simp [hu]))]

theorem stripWs_eq_self (l : List Char) (h : ∀ c ∈ l, isPySpace c = false) :
    stripWs l = l := by
  unfold stripWs
  rw [dropWhile_eq_self_of _ l h]
  rw [dropWhile_eq_self_of _ l.reverse (fun c hc => h c (List.mem_reverse.mp hc))]
  exact List.reverse_reverse l

theorem pyInt_natRepr (n : Nat) : pyInt (natRepr n) = some (n : Int) := by
  have hmem : ∀ c ∈ natRepr n, ∃ d, d < 10 ∧ c = digitChar d :=
    natReprAux_mem (n + 1) n (Nat.lt_succ_self n)
  have hstrip : stripWs (natRepr n) = natRepr n := by
    refine stripWs_eq_self _ ?_
    intro c hc
    obtain ⟨d, hd, rfl⟩ := hmem c hc
    exact digitChar_not_space d hd
  have hne : natRepr n ≠ [] := natReprAux_ne_nil (n + 1) n (Nat.lt_succ_self n)
  have hhead : ∃ d, d < 10 ∧ (natRepr n).headI = digitChar d := by
    cases hr : natRepr n with
    | nil => exact absurd hr hne
    | cons c rest =>
        obtain ⟨d, hd, hcd⟩ := hmem c (by rw [hr]; simp)
        exact ⟨d, hd, by rw [List.headI_cons, hcd]⟩
  obtain ⟨d, hd, hcd⟩ := hhead
  unfold pyInt
  rw [hstrip]
  rw [if_neg (by simp [hne])]
  rw [hcd]
  rw [if_neg (digitChar_ne_plus d hd), if_neg (digitChar_ne_minus d hd)]
  rw [parseDigits_natRepr n]
  rfl

theorem splitOnP_headI_colon (l : List Char) :
    (l.splitOnP (· == ':')).headI = l.takeWhile (fun c => c != ':') := by
  induction l with
  | nil => simp [List.splitOnP_nil]
  | cons c l ih =>
      rw [List.splitOnP_cons]
      by_cases hc : (c == ':') = true
      · rw [if_pos hc]
        rw [List.headI_cons, List.takeWhile_cons]
        have : (c != ':') = false := by simp [bne, hc]
        rw [this]
        simp
      · rw [if_neg hc]
        obtain ⟨L, Ls, hL⟩ : ∃ L Ls, l.splitOnP (· == ':') = L :: Ls := by
          cases hsp : l.splitOnP (· == ':') with
          | nil => exact absurd hsp (List.splitOnP_ne_nil _ l)
          | cons L Ls => exact ⟨L, Ls, rfl⟩
        rw [hL, List.modifyHead_cons, List.headI_cons, List.takeWhile_cons]
        have hb : (c != ':') = true := by simp [bne, hc]
        rw [if_pos hb]
        rw [← ih, hL, List.headI_cons]

theorem pySplitHead_eq_takeWhile (l : List Char) :
    pySplitHead l = l.takeWhile (fun c => c != ':') :=
  splitOnP_headI_colon l

theorem encode_eq (n size : Nat) (h : (seqField n).length ≤ size) :
    encode n size = seqField n ++ List.replicate (size - (seqField n).length - 1) 'X' := by
  unfold encode
  refine List.take_of_length_le ?_
  rw [List.length_append, List.length_replicate]
  omega

theorem pySplitHead_encode (n size : Nat) (h : (seqField n).length ≤ size) :
    pySplitHead (encode n size) = natRepr n := by
  rw [pySplitHead_eq_takeWhile, encode_eq n size h]
  unfold seqField
  rw [List.append_assoc]
  have hall : ∀ c ∈ natRepr n, ((fun c => c != ':') c) = true := by
    intro c hc
    obtain ⟨d, hd, rfl⟩ := natReprAux_mem (n + 1) n (Nat.lt_succ_self n) c hc
    exact digitChar_bne_colon d hd
  have hself := takeWhile_eq_self_of (fun c => c != ':') (natRepr n) hall
  rw [List.takeWhile_append]
  rw [if_pos (by rw [hself])]
  rw [List.singleton_append, List.takeWhile_cons]
  have : ((':' : Char) != ':') = false := by decide
  rw [this]
  simp

/-! Claim theorems: packet codec -/

/-- C3 (counterexample): `decode` does not signal `ParseError` on a missing
delimiter — the whole datagram is then parsed as the number — and it accepts
negative prefixes, so it does not return only non-negative integers. -/
theorem decode_claim_counterexample :
    (':' ∉ (['1', '2', '3'] : List Char)) ∧
    decode ['1', '2', '3'] = Except.ok 123 ∧
    decode ['-', '5', ':'] = Except.ok (-5) :=
  ⟨by decide, rfl, rfl⟩

/-- C3 (amended): `decode` signals `ParseError` exactly when the chunk before the
first delimiter (the whole input when the delimiter is absent) does not parse as an
optionally signed Python integer literal; for every other input it returns the
(possibly negative) integer parsed from that chunk. -/
theorem decode_spec (data : List Char) :
    (decode data = Except.error () ↔
      pyInt (data.takeWhile (fun c => c != ':')) = none) ∧
    ∀ n : Int, pyInt (data.takeWhile (fun c => c != ':')) = some n →
      decode data = Except.ok n := by
  rw [← pySplitHead_eq_takeWhile data]
  constructor
  · cases h : pyInt (pySplitHead data) with
    | none => simp [decode, h]
    | some m => simp [decode, h]
  · intro n hn
    simp [decode, hn]

theorem decode_spec_witness :
    pyInt ((['7', ':', 'a'] : List Char).takeWhile (fun c => c != ':')) = some 7 ∧
    decode ['7', ':', 'a'] = Except.ok 7 :=
  ⟨rfl, (decode_spec ['7', ':', 'a']).2 7 rfl⟩

/-- C4 (code-bug evaluation): whenever the configured size strictly exceeds the
sequence-field length, the sender's datagram is one byte short — the filler count
subtracts one byte too many (sender line 224) — so `encode 0 3` has 2 bytes, not 3,
and `encode 5 10` has 9 bytes, not 10. -/
theorem encode_length_short :
    (natRepr 0).length + 1 ≤ 3 ∧ (encode 0 3).length = 2 ∧
    (natRepr 5).length + 1 ≤ 10 ∧ (encode 5 10).length = 9 :=
  ⟨by decide, by decide, by decide, by decide⟩

/-- C6: for every sequence number whose decimal text plus the delimiter fits in the
configured size, decoding an encoded datagram gives back the sequence number. -/
theorem encode_decode_roundtrip (n size : Nat)
    (h : (natRepr n).length + 1 ≤ size) :
    decode (encode n size) = Except.ok (n : Int) := by
  have hlen : (seqField n).length = (natRepr n).length + 1 := by
    simp [seqField]
  have h' : (seqField n).length ≤ size := by omega
  unfold decode
  rw [pySplitHead_encode n size h', pyInt_natRepr n]

theorem encode_decode_roundtrip_witness :
    (natRepr 42).length + 1 ≤ 10 ∧ decode (encode 42 10) = Except.ok (42 : Int) :=
  ⟨by decide, encode_decode_roundtrip 42 10 (by decide)⟩

theorem rate_window_fifo_witness :
    (∀ t ∈ ([(1, 1, 1), (2, 1, 1), (3, 1, 1), (4, 1, 1), (5, 1, 1), (6, 1, 1),
        (7, 1, 1), (8, 1, 1), (9, 1, 1), (10, 1, 1), (11, 1, 1)] :
          List (ℚ × ℚ × ℚ)), 0 < t.2.2) ∧
    ([(1, 1, 1), (2, 1, 1), (3, 1, 1), (4, 1, 1), (5, 1, 1), (6, 1, 1),
        (7, 1, 1), (8, 1, 1), (9, 1, 1), (10, 1, 1), (11, 1, 1)] :
          List (ℚ × ℚ × ℚ)).foldl tickStep []
      = (([(1, 1, 1), (2, 1, 1), (3, 1, 1), (4, 1, 1), (5, 1, 1), (6, 1, 1),
        (7, 1, 1), (8, 1, 1), (9, 1, 1), (10, 1, 1), (11, 1, 1)] :
          List (ℚ × ℚ × ℚ)).map tickRate).drop
        (([(1, 1, 1), (2, 1, 1), (3, 1, 1), (4, 1, 1), (5, 1, 1), (6, 1, 1),
        (7, 1, 1), (8, 1, 1), (9, 1, 1), (10, 1, 1), (11, 1, 1)] :
          List (ℚ × ℚ × ℚ)).length - 10) :=
  ⟨by intro t ht; fin_cases ht <;> norm_num,
    rate_window_fifo.2 _ (by intro t ht; fin_cases ht <;> norm_num)⟩

end UdpStress
